import Mathlib

/-!
Shallow embedding of the reliable batched delivery subsystem of the
keylogger-python repository: the `chunked` helper and the
newline-delimited-JSON pending store from `utils.py`, and the
`DataSender` queue / send-cycle logic from `sender.py`.

Modelling choices:
* Python strings (file contents, serialized entries) are lists of
  characters; the only line separator the store ever writes is a
  newline character, so `splitlines` is modelled over that separator.
* `json.dumps` / `json.loads` (standard library, not repository code)
  are abstracted as a `Codec`: an encoder and a decoder; the
  well-formedness properties a claim assumes of them (round-trip,
  single-line output, the empty line failing to parse) appear as
  hypotheses.
* The background thread is modelled sequentially: `runCycle` is one
  iteration of the `_run` loop body, `enqueue`, `stop` and `stats` are
  the public methods; the network is an oracle giving the outcome of
  the i-th POST of a cycle.
* Python `int` is `Int`; all counters in the sender are non-negative in
  the source, so they are `Nat`.
-/

namespace Tracker

/-- Embedding of `utils.chunked` (utils.py lines 25-34): the loop body
appends the item to the current chunk, yields the chunk once its length
reaches `size` (`len(chunk) >= size`), and yields the final partial
chunk.  The accumulator `chunk` is the generator's local state; `size`
is a Python `int`; the emptiness test models Python truthiness of the
leftover chunk. -/
def chunkedGo (size : Int) : List α → List α → List (List α)
  | chunk, [] => if chunk.isEmpty then [] else [chunk]
  | chunk, x :: xs =>
    if size ≤ (((chunk ++ [x]).length : Nat) : Int) then
      (chunk ++ [x]) :: chunkedGo size [] xs
    else
      chunkedGo size (chunk ++ [x]) xs

/-- `chunked(iterable, size)` starts with an empty chunk. -/
def chunked (l : List α) (size : Int) : List (List α) :=
  chunkedGo size [] l

/-- The configuration fields of `AppConfig` (config.py) that the
delivery subsystem reads: the webhook target, the send interval and the
batch size.  Both integers are Python `int`s. -/
structure AppConfig where
  webhookUrl : String
  sendIntervalSeconds : Int
  batchSize : Int

/-- The `DEFAULT_CONFIG` values of the fields above (config.py lines
13-15). -/
def defaultConfig : AppConfig :=
  { webhookUrl := "http://127.0.0.1:8000/api/input"
    sendIntervalSeconds := 5
    batchSize := 25 }

/-- `interval = max(1, self.config.send_interval_seconds)` (sender.py
line 62): the sleep interval of the `_run` loop, clamped to at least 1. -/
def runInterval (cfg : AppConfig) : Int :=
  max 1 cfg.sendIntervalSeconds

/-- Abstraction of `json.dumps` / `json.loads` applied to one pending
entry.  `enc` serializes an entry to one line's characters; `dec`
parses a line, `none` standing for a raised `json.JSONDecodeError`. -/
structure Codec (J : Type) where
  enc : J → List Char
  dec : List Char → Option J

/-- Splitting a character list at every newline; every input has at
least one (possibly empty) field, as with repeated `str.split`. -/
def splitOnNl : List Char → List (List Char)
  | [] => [[]]
  | c :: cs =>
    if c = '\n' then [] :: splitOnNl cs
    else
      match splitOnNl cs with
      | [] => [[c]]
      | l :: ls => (c :: l) :: ls

/-- Python `str.splitlines` restricted to the newline separator: the
empty string has no lines, and a trailing newline does not open a final
empty line. -/
def splitlinesL (cs : List Char) : List (List Char) :=
  if cs = [] then []
  else if cs.getLast? = some '\n' then (splitOnNl cs).dropLast
  else splitOnNl cs

/-- Python `"\n".join(...)` over already-serialized lines. -/
def joinNl : List (List Char) → List Char
  | [] => []
  | [p] => p
  | p :: q :: rest => p ++ '\n' :: joinNl (q :: rest)

/-- `PendingPayload.dump_to_file` (utils.py lines 90-93): the file
content written is the newline-join of the serialized entries plus a
trailing newline. -/
def dumpToFile (c : Codec J) (data : List J) : List Char :=
  joinNl (data.map c.enc) ++ ['\n']

/-- `PendingPayload.load_from_file` (utils.py lines 95-106): an absent
file yields no entries; otherwise each line is parsed independently and
lines that fail to parse are skipped. -/
def loadFromFile (c : Codec J) : Option (List Char) → List J
  | none => []
  | some content => (splitlinesL content).filterMap c.dec

/-- The number of `LOGGER.warning("Skipping malformed pending entry")`
calls `load_from_file` makes: one per line that fails to parse. -/
def loadWarnings (c : Codec J) : Option (List Char) → Nat
  | none => 0
  | some content =>
    ((splitlinesL content).filter (fun l => (c.dec l).isNone)).length

/-- Outcome of one `session.post` call in `_send_batch`: a response
with a status code, or a raised `requests.RequestException`. -/
inductive NetResult : Type
  | ok (status : Nat)
  | exn
  deriving DecidableEq

/-- Whether the i-th POST of a cycle counts as a chunk failure:
a transport exception, or a response status `>= 300` (sender.py lines
88-98). -/
def chunkFails (net : Nat → NetResult) (i : Nat) : Bool :=
  match net i with
  | NetResult.ok status => decide (300 ≤ status)
  | NetResult.exn => true

/-- Number of leading chunks, among `n` chunks, transmitted before the
first failing POST: 0 if the first POST fails, otherwise one more than
the same count for the shifted oracle. -/
def okPrefixLen (net : Nat → NetResult) : Nat → Nat
  | 0 => 0
  | n + 1 =>
    if chunkFails net 0 then 0
    else okPrefixLen (fun i => net (i + 1)) n + 1

/-- Result of the `_send_batch` loop: the `all_success` flag it
returns, the total added to `sent_count`, and the number of POST calls
actually made. -/
structure SendOutcome where
  allSuccess : Bool
  sentInc : Nat
  posts : Nat

/-- The `for chunk in batches` loop of `_send_batch` (sender.py lines
81-98): each chunk is POSTed in order; a status `>= 300` or an
exception sets `all_success = False` and breaks before counting the
chunk; a success adds the chunk length to `sent_count`. -/
def sendChunks (net : Nat → NetResult) : List (List E) → SendOutcome
  | [] => { allSuccess := true, sentInc := 0, posts := 0 }
  | ch :: rest =>
    match net 0 with
    | NetResult.exn => { allSuccess := false, sentInc := 0, posts := 1 }
    | NetResult.ok status =>
      if 300 ≤ status then { allSuccess := false, sentInc := 0, posts := 1 }
      else
        let r := sendChunks (fun i => net (i + 1)) rest
        { allSuccess := r.allSuccess
          sentInc := ch.length + r.sentInc
          posts := r.posts + 1 }

/-- `DataSender._send_batch` (sender.py lines 78-99): chunk the
payloads by `batch_size`, then run the transmission loop. -/
def sendBatch (cfg : AppConfig) (net : Nat → NetResult) (payloads : List E) : SendOutcome :=
  sendChunks net (chunked payloads cfg.batchSize)

/-- The mutable state of a `DataSender` (sender.py lines 22-31):
the FIFO queue, the in-memory pending cache, the two counters, and the
content of the pending-cache file (`none` when the file is absent). -/
structure SenderState (E : Type) where
  queue : List E
  pendingCache : List E
  sentCount : Nat
  pendingCount : Nat
  store : Option (List Char)
  deriving DecidableEq

/-- `DataSender.__init__` (sender.py lines 22-31): the pending cache is
loaded from the file and `pending_count` set to its length; the
counters start at 0 and the queue empty. -/
def initSender (c : Codec E) (store0 : Option (List Char)) : SenderState E :=
  { queue := []
    pendingCache := loadFromFile c store0
    sentCount := 0
    pendingCount := (loadFromFile c store0).length
    store := store0 }

/-- `DataSender.enqueue` (sender.py lines 48-50): put the payload on
the queue, then set `pending_count = qsize + len(cache)`. -/
def enqueue (s : SenderState E) (p : E) : SenderState E :=
  { s with
    queue := s.queue ++ [p]
    pendingCount := (s.queue ++ [p]).length + s.pendingCache.length }

/-- `DataSender.flush_pending_to_disk` (sender.py lines 101-108): a
no-op when the cache is empty, otherwise the cache is dumped to the
file (a write error is only logged; it is not modelled). -/
def flushPendingToDisk (c : Codec E) (s : SenderState E) : SenderState E :=
  if s.pendingCache.isEmpty then s
  else { s with store := some (dumpToFile c s.pendingCache) }

/-- `DataSender.stop` (sender.py lines 41-46) in the sequential model:
the loop is no longer run, and the pending cache is flushed to disk. -/
def stop (c : Codec E) (s : SenderState E) : SenderState E :=
  flushPendingToDisk c s

/-- One iteration of the `_run` loop body (sender.py lines 63-76):
drain the queue behind the persisted cache; skip when empty; otherwise
send, and on full success clear cache, file and pending count, else
keep the whole working set as the cache, set `pending_count` to its
length and flush it to disk.  The second component is the number of
POST calls the iteration made. -/
def runCycle (c : Codec E) (cfg : AppConfig) (net : Nat → NetResult) (s : SenderState E) :
    SenderState E × Nat :=
  let pending := s.pendingCache ++ s.queue
  if pending.isEmpty then ({ s with queue := [] }, 0)
  else
    let out := sendBatch cfg net pending
    if out.allSuccess then
      ({ queue := []
         pendingCache := []
         sentCount := s.sentCount + out.sentInc
         pendingCount := 0
         store := none }, out.posts)
    else
      (flushPendingToDisk c
        { queue := []
          pendingCache := pending
          sentCount := s.sentCount + out.sentInc
          pendingCount := pending.length
          store := s.store }, out.posts)

/-- `DataSender.stats` (sender.py lines 110-111): returns
`(sent_count, pending_count + qsize)`. -/
def stats (s : SenderState E) : Nat × Nat :=
  (s.sentCount, s.pendingCount + s.queue.length)

/-- States of a `DataSender` reachable from construction by any
sequence of `enqueue` calls, loop iterations and `stop`. -/
inductive Reachable (c : Codec E) (cfg : AppConfig) : SenderState E → Prop
  | con (store0 : Option (List Char)) : Reachable c cfg (initSender c store0)
  | enq {s : SenderState E} (p : E) :
      Reachable c cfg s → Reachable c cfg (enqueue s p)
  | cyc {s : SenderState E} (net : Nat → NetResult) :
      Reachable c cfg s → Reachable c cfg (runCycle c cfg net s).1
  | halt {s : SenderState E} :
      Reachable c cfg s → Reachable c cfg (stop c s)

/-- A concrete codec used to instantiate theorems with hypotheses:
entry `n` is serialized as `e` followed by `n` copies of `x`; a line is
parsed back by counting, and any line not starting with `e` (the empty
line included) fails to parse. -/
def natCodec : Codec Nat :=
  { enc := fun n => 'e' :: List.replicate n 'x'
    dec := fun cs =>
      match cs with
      | 'e' :: rest => some rest.length
      | _ => none }

/-- A configuration whose batch size is 2, as in the partial-failure
scenario. -/
def cfgBatch2 : AppConfig :=
  { webhookUrl := "http://127.0.0.1:8000/api/input"
    sendIntervalSeconds := 5
    batchSize := 2 }

/-- A network oracle whose first POST succeeds with status 200 and all
later POSTs raise a transport exception. -/
def netOkThenExn : Nat → NetResult :=
  fun i => if i = 0 then NetResult.ok 200 else NetResult.exn

/-- A sender state whose queue holds the working set [1,2,3,4,5], with
nothing persisted and nothing sent yet. -/
def fiveQueued : SenderState Nat :=
  { queue := [1, 2, 3, 4, 5]
    pendingCache := []
    sentCount := 0
    pendingCount := 5
    store := none }

end Tracker

namespace Tracker

theorem chunkedGo_flatten (size : Int) (l : List α) :
    ∀ acc : List α, (chunkedGo size acc l).flatten = acc ++ l := by
  induction l with
  | nil =>
    intro acc
    cases acc <;> simp [chunkedGo]
  | cons x xs ih =>
    intro acc
    simp only [chunkedGo]
    split
    · simp [ih]
    · simp [ih]

theorem chunkedGo_length (bn : Nat) (hbn : 1 ≤ bn) (l : List α) :
    ∀ acc : List α, acc.length < bn →
    (chunkedGo (bn : Int) acc l).length = (acc.length + l.length + bn - 1) / bn := by
  induction l with
  | nil =>
    intro acc hacc
    cases acc with
    | nil =>
      have h0 : (bn - 1) / bn = 0 := Nat.div_eq_of_lt (by omega)
      simp [chunkedGo, h0]
    | cons a as =>
      have hacc1 : as.length + 1 < bn := by simpa using hacc
      have h1 : (as.length + 1 + 0 + bn - 1) / bn = 1 :=
        Nat.div_eq_of_lt_le (by omega) (by omega)
      simpa [chunkedGo] using h1.symm
  | cons x xs ih =>
    intro acc hacc
    simp only [chunkedGo]
    split_ifs with h
    · have hle : bn ≤ acc.length + 1 := by
        simp only [List.length_append, List.length_cons, List.length_nil] at h
        push_cast at h
        omega
      have hrec := ih [] (by simp only [List.length_nil]; omega)
      simp only [List.length_cons, hrec, List.length_nil]
      have hnum : acc.length + (xs.length + 1) + bn - 1 = 0 + xs.length + bn - 1 + bn := by
        omega
      rw [hnum, Nat.add_div_right _ (by omega : 0 < bn)]
    · have hlt : acc.length + 1 < bn := by
        simp only [List.length_append, List.length_cons, List.length_nil] at h
        push_cast at h
        omega
      have hrec := ih (acc ++ [x])
        (by simp only [List.length_append, List.length_cons, List.length_nil]; omega)
      simp only [hrec, List.length_append, List.length_cons, List.length_nil]
      congr 1
      omega

theorem chunkedGo_dropLast_length (bn : Nat) (l : List α) :
    ∀ acc : List α, acc.length < bn →
    ∀ ch ∈ (chunkedGo (bn : Int) acc l).dropLast, ch.length = bn := by
  induction l with
  | nil =>
    intro acc _ ch hch
    cases acc <;> simp [chunkedGo] at hch
  | cons x xs ih =>
    intro acc hacc ch hch
    simp only [chunkedGo] at hch
    split_ifs at hch with h
    · have heq : (acc ++ [x]).length = bn := by
        simp only [List.length_append, List.length_cons, List.length_nil] at h ⊢
        push_cast at h
        omega
      have hb1 : 1 ≤ bn := by
        have h2 := heq
        simp only [List.length_append, List.length_cons, List.length_nil] at h2
        omega
      rcases hr : chunkedGo (bn : Int) ([] : List α) xs with _ | ⟨y, ys⟩
      · rw [hr] at hch
        simp at hch
      · rw [hr] at hch
        rw [List.dropLast_cons₂] at hch
        rcases List.mem_cons.mp hch with h1 | h2
        · rw [h1]; exact heq
        · exact ih [] (by simp only [List.length_nil]; omega) ch (by rw [hr]; exact h2)
    · have hlt : acc.length + 1 < bn := by
        simp only [List.length_append, List.length_cons, List.length_nil] at h
        push_cast at h
        omega
      exact ih (acc ++ [x])
        (by simp only [List.length_append, List.length_cons, List.length_nil]; omega) ch hch

theorem chunked_singletons (l : List α) (size : Int) (hs : size ≤ 0) :
    chunked l size = l.map (fun x => [x]) := by
  unfold chunked
  induction l with
  | nil => simp [chunkedGo]
  | cons x xs ih =>
    simp only [chunkedGo, List.nil_append, List.length_cons, List.length_nil]
    rw [if_pos (by omega : size ≤ ((1 : Nat) : Int))]
    simpa using ih

theorem splitOnNl_ne_nil (cs : List Char) : splitOnNl cs ≠ [] := by
  induction cs with
  | nil => simp [splitOnNl]
  | cons c cs ih =>
    simp only [splitOnNl]
    split
    · simp
    · rcases h : splitOnNl cs with _ | ⟨l, ls⟩
      · simp
      · simp

theorem splitOnNl_cons_of_ne (c : Char) (cs : List Char) (hc : ¬ c = '\n') :
    splitOnNl (c :: cs) =
      (c :: (splitOnNl cs).headI) :: (splitOnNl cs).tail := by
  simp only [splitOnNl, if_neg hc]
  rcases h : splitOnNl cs with _ | ⟨l, ls⟩
  · exact absurd h (splitOnNl_ne_nil cs)
  · simp

theorem splitOnNl_sep (p rest : List Char) (hp : '\n' ∉ p) :
    splitOnNl (p ++ '\n' :: rest) = p :: splitOnNl rest := by
  induction p with
  | nil => simp [splitOnNl]
  | cons c p ih =>
    have hc : ¬ c = '\n' := fun h => hp (by rw [h]; exact List.mem_cons_self _ _)
    have hp' : '\n' ∉ p := fun h => hp (List.mem_cons_of_mem _ h)
    rw [List.cons_append, splitOnNl_cons_of_ne c _ hc, ih hp']
    simp

theorem splitOnNl_of_no_nl (p : List Char) (hp : '\n' ∉ p) :
    splitOnNl p = [p] := by
  induction p with
  | nil => simp [splitOnNl]
  | cons c p ih =>
    have hc : ¬ c = '\n' := fun h => hp (by rw [h]; exact List.mem_cons_self _ _)
    have hp' : '\n' ∉ p := fun h => hp (List.mem_cons_of_mem _ h)
    rw [splitOnNl_cons_of_ne c _ hc, ih hp']
    simp

theorem splitOnNl_joinNl (parts : List (List Char)) (hne : parts ≠ [])
    (h : ∀ p ∈ parts, '\n' ∉ p) :
    splitOnNl (joinNl parts) = parts := by
  induction parts with
  | nil => exact absurd rfl hne
  | cons p rest ih =>
    cases rest with
    | nil =>
      exact splitOnNl_of_no_nl p (h p (List.mem_cons_self _ _))
    | cons q rest' =>
      have hp : '\n' ∉ p := h p (List.mem_cons_self _ _)
      have hrec := ih (by simp) (fun r hr => h r (List.mem_cons_of_mem _ hr))
      rw [joinNl, splitOnNl_sep p _ hp, hrec]

theorem splitOnNl_append_nl (xs : List Char) :
    splitOnNl (xs ++ ['\n']) = splitOnNl xs ++ [[]] := by
  induction xs with
  | nil => simp [splitOnNl]
  | cons c cs ih =>
    by_cases hc : c = '\n'
    · subst hc
      simp only [List.cons_append, splitOnNl, if_pos rfl]
      simpa using ih
    · rw [List.cons_append, splitOnNl_cons_of_ne c _ hc,
        splitOnNl_cons_of_ne c _ hc, ih]
      rcases h : splitOnNl cs with _ | ⟨l, ls⟩
      · exact absurd h (splitOnNl_ne_nil cs)
      · simp

theorem splitlinesL_dump (parts : List (List Char)) (h : ∀ p ∈ parts, '\n' ∉ p) :
    splitlinesL (joinNl parts ++ ['\n']) =
      if parts.isEmpty then [[]] else parts := by
  have hlast : (joinNl parts ++ ['\n']).getLast? = some '\n' := by
    rw [List.getLast?_append]
    simp
  have hne : joinNl parts ++ ['\n'] ≠ [] := by simp
  rw [splitlinesL, if_neg hne, if_pos hlast, splitOnNl_append_nl]
  cases parts with
  | nil => simp [joinNl, splitOnNl]
  | cons p rest =>
    rw [splitOnNl_joinNl (p :: rest) (by simp) h, List.dropLast_concat]
    simp

theorem filterMap_dec_enc (c : Codec J) (S : List J)
    (h : ∀ j ∈ S, c.dec (c.enc j) = some j) :
    (S.map c.enc).filterMap c.dec = S := by
  induction S with
  | nil => simp
  | cons j rest ih =>
    rw [List.map_cons, List.filterMap_cons,
      h j (List.mem_cons_self _ _), ih (fun j hj => h j (List.mem_cons_of_mem _ hj))]

theorem length_filterMap_add_none (f : α → Option β) (l : List α) :
    (l.filterMap f).length + (l.filter (fun a => (f a).isNone)).length = l.length := by
  induction l with
  | nil => simp
  | cons a l ih =>
    rw [List.filterMap_cons, List.filter_cons]
    cases h : f a <;> simp [h] <;> omega

theorem sendChunks_spec (chunks : List (List E)) :
    ∀ net : Nat → NetResult,
    (sendChunks net chunks).sentInc
        = ((chunks.take (okPrefixLen net chunks.length)).map List.length).sum
    ∧ (sendChunks net chunks).posts
        = min chunks.length (okPrefixLen net chunks.length + 1)
    ∧ ((sendChunks net chunks).allSuccess = true
        ↔ okPrefixLen net chunks.length = chunks.length) := by
  induction chunks with
  | nil =>
    intro net
    simp [sendChunks, okPrefixLen]
  | cons ch rest ih =>
    intro net
    have hfail : ∀ h : chunkFails net 0 = true,
        (sendChunks net (ch :: rest)).sentInc = 0
        ∧ (sendChunks net (ch :: rest)).posts = 1
        ∧ (sendChunks net (ch :: rest)).allSuccess = false := by
      intro hf
      cases hnet : net 0 with
      | ok st =>
        have hst : 300 ≤ st := by
          simpa [chunkFails, hnet] using hf
        simp [sendChunks, hnet, if_pos hst]
      | exn => simp [sendChunks, hnet]
    by_cases hf : chunkFails net 0 = true
    · obtain ⟨h1, h2, h3⟩ := hfail hf
      have hk : okPrefixLen net (ch :: rest).length = 0 := by
        simp [List.length_cons, okPrefixLen, hf]
      rw [h1, h2, h3, hk]
      refine ⟨by simp, ?_, by simp⟩
      simp only [List.length_cons]
      omega
    · have hfb : chunkFails net 0 = false := by
        simpa using hf
      cases hnet : net 0 with
      | exn => simp [chunkFails, hnet] at hfb
      | ok st =>
        have hst : ¬ 300 ≤ st := by
          intro hc
          simp [chunkFails, hnet, hc] at hfb
        obtain ⟨ih1, ih2, ih3⟩ := ih (fun i => net (i + 1))
        have hk : okPrefixLen net (ch :: rest).length
            = okPrefixLen (fun i => net (i + 1)) rest.length + 1 := by
          simp [List.length_cons, okPrefixLen, hfb]
        have hsc : sendChunks net (ch :: rest)
            = { allSuccess := (sendChunks (fun i => net (i + 1)) rest).allSuccess
                sentInc := ch.length + (sendChunks (fun i => net (i + 1)) rest).sentInc
                posts := (sendChunks (fun i => net (i + 1)) rest).posts + 1 } := by
          simp [sendChunks, hnet, if_neg hst]
        rw [hsc, hk]
        refine ⟨?_, ?_, ?_⟩
        · simp only [List.take_succ_cons, List.map_cons, List.sum_cons, ih1]
        · simp only [List.length_cons, ih2]
          omega
        · simp only [List.length_cons, ih3]
          constructor
          · intro h; omega
          · intro h; omega

theorem flush_fields (c : Codec E) (s : SenderState E) :
    (flushPendingToDisk c s).queue = s.queue
    ∧ (flushPendingToDisk c s).pendingCache = s.pendingCache
    ∧ (flushPendingToDisk c s).sentCount = s.sentCount
    ∧ (flushPendingToDisk c s).pendingCount = s.pendingCount := by
  unfold flushPendingToDisk
  split <;> exact ⟨rfl, rfl, rfl, rfl⟩

theorem reachable_pendingCount (c : Codec E) (cfg : AppConfig) (s : SenderState E)
    (h : Reachable c cfg s) :
    s.pendingCount = s.pendingCache.length + s.queue.length := by
  induction h with
  | con store0 => simp [initSender]
  | enq p _ ih =>
    simp only [enqueue]
    omega
  | cyc net _ ih =>
    rename_i s' _
    simp only [runCycle]
    split
    · rename_i hemp
      simp only [List.isEmpty_eq_true, List.append_eq_nil] at hemp
      simp [hemp.1, hemp.2] at ih ⊢
      omega
    · split
      · simp
      · obtain ⟨hq, hpc, _, hcnt⟩ := flush_fields c
          { queue := ([] : List E)
            pendingCache := s'.pendingCache ++ s'.queue
            sentCount := s'.sentCount + (sendBatch cfg net (s'.pendingCache ++ s'.queue)).sentInc
            pendingCount := (s'.pendingCache ++ s'.queue).length
            store := s'.store }
        simp only [hq, hpc, hcnt]
        simp
  | halt _ ih =>
    rename_i s' _
    obtain ⟨hq, hpc, _, hcnt⟩ := flush_fields c s'
    simp only [stop, hq, hpc, hcnt]
    exact ih

/-- C5: for every list of length L and every batch size b ≥ 1,
`chunked` produces exactly ⌈L/b⌉ = (L+b-1)/b chunks, every chunk
except possibly the last has length exactly b, and concatenating the
chunks in order reproduces the original list in its original order. -/
theorem chunked_laws (l : List α) (b : Int) (hb : 1 ≤ b) :
    (chunked l b).length = (l.length + b.toNat - 1) / b.toNat
    ∧ (∀ ch ∈ (chunked l b).dropLast, ch.length = b.toNat)
    ∧ (chunked l b).flatten = l := by
  obtain ⟨bn, rfl⟩ : ∃ bn : Nat, b = (bn : Int) :=
    ⟨b.toNat, (Int.toNat_of_nonneg (by omega)).symm⟩
  have hbn : 1 ≤ bn := by exact_mod_cast hb
  refine ⟨?_, ?_, ?_⟩
  · have h := chunkedGo_length bn hbn l [] (by simp only [List.length_nil]; omega)
    simpa [chunked] using h
  · intro ch hch
    have h := chunkedGo_dropLast_length bn l [] (by simp only [List.length_nil]; omega) ch
    simp only [chunked] at hch
    simpa using h hch
  · simpa [chunked] using chunkedGo_flatten (bn : Int) l []

/-- Witness for C5 at l = [10,20,30,40,50] and b = 2. -/
theorem chunked_laws_witness :
    (1 : Int) ≤ 2
    ∧ ((chunked ([10, 20, 30, 40, 50] : List Nat) 2).length
          = (([10, 20, 30, 40, 50] : List Nat).length + (2 : Int).toNat - 1) / (2 : Int).toNat
        ∧ (∀ ch ∈ (chunked ([10, 20, 30, 40, 50] : List Nat) 2).dropLast,
            ch.length = (2 : Int).toNat)
        ∧ (chunked ([10, 20, 30, 40, 50] : List Nat) 2).flatten = [10, 20, 30, 40, 50]) :=
  ⟨by decide, chunked_laws [10, 20, 30, 40, 50] 2 (by decide)⟩

/-- C10: for every size ≤ 0, `chunked` terminates and yields each
element as its own singleton chunk (so concatenation reproduces the
input); the chunking code itself never clamps the size, unlike the
send interval which is clamped with max(1, ...). -/
theorem chunked_nonpositive_size (l : List α) (size : Int) (hs : size ≤ 0)
    (cfg : AppConfig) :
    chunked l size = l.map (fun x => [x])
    ∧ (chunked l size).flatten = l
    ∧ 1 ≤ runInterval cfg := by
  refine ⟨chunked_singletons l size hs, ?_, le_max_left _ _⟩
  rw [chunked_singletons l size hs]
  induction l with
  | nil => simp
  | cons x xs ih => simpa using ih

/-- Witness for C10 at l = [1,2,3], size = -2, the default config. -/
theorem chunked_nonpositive_size_witness :
    (-2 : Int) ≤ 0
    ∧ (chunked ([1, 2, 3] : List Nat) (-2) = ([1, 2, 3] : List Nat).map (fun x => [x])
        ∧ (chunked ([1, 2, 3] : List Nat) (-2)).flatten = [1, 2, 3]
        ∧ 1 ≤ runInterval defaultConfig) :=
  ⟨by decide, chunked_nonpositive_size [1, 2, 3] (-2) (by decide) defaultConfig⟩

/-- C4: for every pending set S whose entries are well-formed — each
serializes to a single line that parses back, and the empty line does
not parse — saving S and loading it back returns exactly S. -/
theorem load_save_roundtrip (c : Codec J) (S : List J)
    (henc : ∀ j ∈ S, c.dec (c.enc j) = some j)
    (hline : ∀ j ∈ S, '\n' ∉ c.enc j)
    (hempty : c.dec [] = none) :
    loadFromFile c (some (dumpToFile c S)) = S := by
  have hl : ∀ p ∈ S.map c.enc, '\n' ∉ p := by
    intro p hp
    obtain ⟨j, hj, rfl⟩ := List.mem_map.mp hp
    exact hline j hj
  simp only [loadFromFile, dumpToFile, splitlinesL_dump (S.map c.enc) hl]
  by_cases hS : S = []
  · subst hS
    simp [hempty]
  · rw [if_neg (by simpa using hS)]
    exact filterMap_dec_enc c S henc

/-- Witness for C4 with the concrete codec at S = [0,1,2]. -/
theorem load_save_roundtrip_witness :
    (∀ j ∈ ([0, 1, 2] : List Nat), natCodec.dec (natCodec.enc j) = some j)
    ∧ (∀ j ∈ ([0, 1, 2] : List Nat), '\n' ∉ natCodec.enc j)
    ∧ natCodec.dec [] = none
    ∧ loadFromFile natCodec (some (dumpToFile natCodec [0, 1, 2])) = [0, 1, 2] :=
  ⟨by decide, by decide, by decide,
    load_save_roundtrip natCodec [0, 1, 2] (by decide) (by decide) (by decide)⟩

/-- C6: loading with an absent backing file returns an empty set (and
no warning); for a file of lines, every line that fails to parse is
skipped with one warning recorded and every parseable line is kept in
order; in particular five lines with exactly one invalid line load
exactly four entries. -/
theorem load_missing_and_malformed (c : Codec J) (lines : List (List Char))
    (hnl : ∀ p ∈ lines, '\n' ∉ p) (hne : lines ≠ []) :
    loadFromFile c none = []
    ∧ loadWarnings c none = 0
    ∧ loadFromFile c (some (joinNl lines ++ ['\n'])) = lines.filterMap c.dec
    ∧ loadWarnings c (some (joinNl lines ++ ['\n']))
        = (lines.filter (fun p => (c.dec p).isNone)).length
    ∧ (lines.length = 5 →
        (lines.filter (fun p => (c.dec p).isNone)).length = 1 →
        (loadFromFile c (some (joinNl lines ++ ['\n']))).length = 4) := by
  have hsplit : splitlinesL (joinNl lines ++ ['\n']) = lines := by
    rw [splitlinesL_dump lines hnl, if_neg (by simpa using hne)]
  refine ⟨rfl, rfl, ?_, ?_, ?_⟩
  · simp only [loadFromFile, hsplit]
  · simp only [loadWarnings, hsplit]
  · intro h5 h1
    have hlen := length_filterMap_add_none c.dec lines
    simp only [loadFromFile, hsplit]
    omega

/-- Witness for C6: five lines, the third invalid, load as [0,1,2,0]. -/
theorem load_missing_and_malformed_witness :
    (∀ p ∈ [['e'], ['e', 'x'], ['z'], ['e', 'x', 'x'], ['e']], '\n' ∉ p)
    ∧ ([['e'], ['e', 'x'], ['z'], ['e', 'x', 'x'], ['e']] : List (List Char)) ≠ []
    ∧ (loadFromFile natCodec none = []
        ∧ loadWarnings natCodec none = 0
        ∧ loadFromFile natCodec
            (some (joinNl [['e'], ['e', 'x'], ['z'], ['e', 'x', 'x'], ['e']] ++ ['\n']))
            = ([['e'], ['e', 'x'], ['z'], ['e', 'x', 'x'], ['e']]).filterMap natCodec.dec
        ∧ loadWarnings natCodec
            (some (joinNl [['e'], ['e', 'x'], ['z'], ['e', 'x', 'x'], ['e']] ++ ['\n']))
            = (([['e'], ['e', 'x'], ['z'], ['e', 'x', 'x'], ['e']]).filter
                (fun p => (natCodec.dec p).isNone)).length
        ∧ (([['e'], ['e', 'x'], ['z'], ['e', 'x', 'x'], ['e']] : List (List Char)).length = 5 →
            (([['e'], ['e', 'x'], ['z'], ['e', 'x', 'x'], ['e']]).filter
                (fun p => (natCodec.dec p).isNone)).length = 1 →
            (loadFromFile natCodec
              (some (joinNl [['e'], ['e', 'x'], ['z'], ['e', 'x', 'x'], ['e']] ++ ['\n']))).length
              = 4)) :=
  ⟨by decide, by decide,
    load_missing_and_malformed natCodec
      [['e'], ['e', 'x'], ['z'], ['e', 'x', 'x'], ['e']] (by decide) (by decide)⟩

/-- C7: in every send cycle the chunks are transmitted in order; the
number of POSTs is one more than the length of the maximal successful
prefix of chunks (capped at the chunk count), so nothing is sent after
the first failure; the delivered counter increases by exactly the total
length of that prefix; the cycle succeeds iff every chunk succeeded. -/
theorem send_cycle_failstop (c : Codec E) (cfg : AppConfig) (net : Nat → NetResult)
    (payloads : List E) :
    (sendBatch cfg net payloads).sentInc
        = (((chunked payloads cfg.batchSize).take
            (okPrefixLen net (chunked payloads cfg.batchSize).length)).map List.length).sum
    ∧ (sendBatch cfg net payloads).posts
        = min (chunked payloads cfg.batchSize).length
            (okPrefixLen net (chunked payloads cfg.batchSize).length + 1)
    ∧ ((sendBatch cfg net payloads).allSuccess = true
        ↔ okPrefixLen net (chunked payloads cfg.batchSize).length
            = (chunked payloads cfg.batchSize).length)
    ∧ (∀ s : SenderState E, s.pendingCache ++ s.queue = payloads → payloads ≠ [] →
        (runCycle c cfg net s).1.sentCount
          = s.sentCount + (sendBatch cfg net payloads).sentInc) := by
  obtain ⟨h1, h2, h3⟩ := sendChunks_spec (chunked payloads cfg.batchSize) net
  refine ⟨h1, h2, h3, ?_⟩
  intro s hw hne
  simp only [runCycle, hw]
  rw [if_neg (by simpa using hne)]
  split
  · rfl
  · obtain ⟨_, _, hsc, _⟩ := flush_fields c
      { queue := ([] : List E)
        pendingCache := payloads
        sentCount := s.sentCount + (sendBatch cfg net payloads).sentInc
        pendingCount := payloads.length
        store := s.store }
    exact hsc

/-- Witness for C7's hypothesis-bearing part: an all-success cycle on
the working set [1,2,3,4,5]. -/
theorem send_cycle_failstop_witness :
    (runCycle natCodec defaultConfig (fun _ => NetResult.ok 200) fiveQueued).1.sentCount
      = fiveQueued.sentCount
        + (sendBatch defaultConfig (fun _ => NetResult.ok 200) [1, 2, 3, 4, 5]).sentInc :=
  (send_cycle_failstop natCodec defaultConfig (fun _ => NetResult.ok 200)
      [1, 2, 3, 4, 5]).2.2.2 fiveQueued (by decide) (by decide)

/-- C9: at a tick where both the queue and the pending cache (the
in-memory copy of the persisted set) are empty, the cycle makes no
network call and leaves the whole state, hence the stats, unchanged. -/
theorem empty_cycle_noop (c : Codec E) (cfg : AppConfig) (net : Nat → NetResult)
    (s : SenderState E) (hq : s.queue = []) (hp : s.pendingCache = []) :
    (runCycle c cfg net s).1 = s
    ∧ (runCycle c cfg net s).2 = 0
    ∧ stats (runCycle c cfg net s).1 = stats s := by
  obtain ⟨q, pc, sc, pcount, st⟩ := s
  simp only at hq hp
  subst hq
  subst hp
  refine ⟨?_, ?_, ?_⟩ <;> simp [runCycle, stats]

/-- Witness for C9: a fresh sender constructed with no pending file. -/
theorem empty_cycle_noop_witness :
    (initSender natCodec none).queue = []
    ∧ (initSender natCodec none).pendingCache = []
    ∧ ((runCycle natCodec defaultConfig (fun _ => NetResult.exn) (initSender natCodec none)).1
          = initSender natCodec none
        ∧ (runCycle natCodec defaultConfig (fun _ => NetResult.exn)
            (initSender natCodec none)).2 = 0
        ∧ stats (runCycle natCodec defaultConfig (fun _ => NetResult.exn)
            (initSender natCodec none)).1 = stats (initSender natCodec none)) :=
  ⟨rfl, rfl,
    empty_cycle_noop natCodec defaultConfig (fun _ => NetResult.exn)
      (initSender natCodec none) rfl rfl⟩

/-- C1 as stated is false: with batch_size 2, working set [1,2,3,4,5],
first chunk delivered and second chunk failing, the persisted pending
set is NOT [3,4,5] — the whole working set, successful chunk included,
is persisted. -/
theorem failed_chunk_counterexample :
    loadFromFile natCodec ((runCycle natCodec cfgBatch2 netOkThenExn fiveQueued).1.store)
        ≠ [3, 4, 5]
    ∧ loadFromFile natCodec ((runCycle natCodec cfgBatch2 netOkThenExn fiveQueued).1.store)
        = [1, 2, 3, 4, 5]
    ∧ (runCycle natCodec cfgBatch2 netOkThenExn fiveQueued).1.sentCount = 2 := by
  decide

/-- C1 amended: with batch_size = 2 and working set [e1,e2,e3,e4,e5],
if the chunk [e1,e2] is transmitted successfully and the chunk [e3,e4]
fails, the pending set persisted at the end of the cycle is the ENTIRE
working set [e1,e2,e3,e4,e5] (the successful chunk is retained and will
be retried, not dropped), and the delivered counter increases by
exactly 2. -/
theorem failed_chunk_retains_all (c : Codec E) (cfg : AppConfig)
    (net : Nat → NetResult) (e1 e2 e3 e4 e5 : E) (s : SenderState E)
    (hb : cfg.batchSize = 2)
    (hw : s.pendingCache ++ s.queue = [e1, e2, e3, e4, e5])
    (h0 : chunkFails net 0 = false)
    (h1 : chunkFails net 1 = true) :
    (runCycle c cfg net s).1.pendingCache = [e1, e2, e3, e4, e5]
    ∧ (runCycle c cfg net s).1.store = some (dumpToFile c [e1, e2, e3, e4, e5])
    ∧ (runCycle c cfg net s).1.sentCount = s.sentCount + 2
    ∧ (runCycle c cfg net s).1.pendingCount = 5 := by
  have hch : chunked [e1, e2, e3, e4, e5] (2 : Int) = [[e1, e2], [e3, e4], [e5]] := by
    norm_num [chunked, chunkedGo]
  have hout : sendBatch cfg net [e1, e2, e3, e4, e5]
      = { allSuccess := false, sentInc := 2, posts := 2 } := by
    rw [sendBatch, hb, hch]
    cases hnet0 : net 0 with
    | exn => simp [chunkFails, hnet0] at h0
    | ok st0 =>
      have hst0 : ¬ 300 ≤ st0 := by
        intro hc
        simp [chunkFails, hnet0, hc] at h0
      cases hnet1 : net 1 with
      | exn => simp [sendChunks, hnet0, hnet1, if_neg hst0]
      | ok st1 =>
        have hst1 : 300 ≤ st1 := by
          simpa [chunkFails, hnet1] using h1
        simp [sendChunks, hnet0, hnet1, if_neg hst0, if_pos hst1]
  simp only [runCycle, hw]
  rw [if_neg (by simp), hout]
  simp [flushPendingToDisk, hw]

/-- Witness for C1's amended theorem at the concrete scenario. -/
theorem failed_chunk_retains_all_witness :
    cfgBatch2.batchSize = 2
    ∧ fiveQueued.pendingCache ++ fiveQueued.queue = [1, 2, 3, 4, 5]
    ∧ chunkFails netOkThenExn 0 = false
    ∧ chunkFails netOkThenExn 1 = true
    ∧ ((runCycle natCodec cfgBatch2 netOkThenExn fiveQueued).1.pendingCache = [1, 2, 3, 4, 5]
        ∧ (runCycle natCodec cfgBatch2 netOkThenExn fiveQueued).1.store
            = some (dumpToFile natCodec [1, 2, 3, 4, 5])
        ∧ (runCycle natCodec cfgBatch2 netOkThenExn fiveQueued).1.sentCount
            = fiveQueued.sentCount + 2
        ∧ (runCycle natCodec cfgBatch2 netOkThenExn fiveQueued).1.pendingCount = 5) :=
  ⟨by decide, by decide, by decide, by decide,
    failed_chunk_retains_all natCodec cfgBatch2 netOkThenExn 1 2 3 4 5 fiveQueued
      (by decide) (by decide) (by decide) (by decide)⟩

/-- C2 as stated is false: enqueue 3 events into a fresh sender (no
pending file) and stop before any cycle; the store stays absent, so
none of the 3 events is present in the persistent pending store. -/
theorem stop_flush_counterexample :
    (stop natCodec (enqueue (enqueue (enqueue (initSender natCodec none) 1) 2) 3)).store
        = none
    ∧ ¬ ((1 : Nat) ∈ loadFromFile natCodec
        (stop natCodec (enqueue (enqueue (enqueue (initSender natCodec none) 1) 2) 3)).store) := by
  decide

/-- C2 amended: stop() flushes only the in-memory pending cache, not
the queue; after enqueuing 3 events into a fresh sender and stopping
with no cycle run, the 3 events remain only in the in-memory queue and
the persistent store remains absent. -/
theorem stop_flushes_only_cache (c : Codec E) (p1 p2 p3 : E) :
    (stop c (enqueue (enqueue (enqueue (initSender c none) p1) p2) p3)).store = none
    ∧ (stop c (enqueue (enqueue (enqueue (initSender c none) p1) p2) p3)).queue
        = [p1, p2, p3] := by
  exact ⟨rfl, rfl⟩

/-- C3 as stated is false: right after one enqueue into a fresh sender,
stats reports pending_total = 2, while queue (1) plus persisted set (0)
is 1 — the queued event is double counted. -/
theorem stats_counterexample :
    (stats (enqueue (initSender natCodec none) 1)).2 = 2
    ∧ (enqueue (initSender natCodec none) 1).queue.length
        + (loadFromFile natCodec (enqueue (initSender natCodec none) 1).store).length = 1
    ∧ (stats (enqueue (initSender natCodec none) 1)).2
        ≠ (enqueue (initSender natCodec none) 1).queue.length
          + (loadFromFile natCodec (enqueue (initSender natCodec none) 1).store).length := by
  decide

/-- C3 amended: in every reachable state pending_count equals
|cache| + |queue|, so the reported pending_total is |cache| + 2·|queue|
(each undrained queued event is counted twice); it equals
|queue| + |pending set| exactly when the queue is empty, and it is
never negative. -/
theorem stats_pending_total (c : Codec E) (cfg : AppConfig) (s : SenderState E)
    (h : Reachable c cfg s) :
    (stats s).2 = s.pendingCache.length + 2 * s.queue.length
    ∧ (s.queue = [] → (stats s).2 = s.queue.length + s.pendingCache.length)
    ∧ 0 ≤ (stats s).2 := by
  have hinv := reachable_pendingCount c cfg s h
  refine ⟨?_, ?_, Nat.zero_le _⟩
  · simp only [stats, hinv]
    omega
  · intro hq
    simp only [stats, hinv, hq]
    simp

/-- Witness for C3's amended theorem: the reachable state after one
enqueue into a fresh sender. -/
theorem stats_pending_total_witness :
    (stats (enqueue (initSender natCodec none) 7)).2
        = (enqueue (initSender natCodec none) 7).pendingCache.length
          + 2 * (enqueue (initSender natCodec none) 7).queue.length
    ∧ ((enqueue (initSender natCodec none) 7).queue = [] →
        (stats (enqueue (initSender natCodec none) 7)).2
          = (enqueue (initSender natCodec none) 7).queue.length
            + (enqueue (initSender natCodec none) 7).pendingCache.length)
    ∧ 0 ≤ (stats (enqueue (initSender natCodec none) 7)).2 :=
  stats_pending_total natCodec defaultConfig _ (Reachable.enq 7 (Reachable.con none))

/-- C8 as stated is false: constructing a sender over a file whose only
line is malformed gives an empty pending cache with the file still
present; stopping (an empty save) leaves the file in place instead of
removing it. -/
theorem empty_flush_counterexample :
    (initSender natCodec (some ['z'])).pendingCache = []
    ∧ (stop natCodec (initSender natCodec (some ['z']))).store = some ['z'] := by
  decide

/-- C8 amended: a flush of an empty pending set writes nothing and
leaves any existing backing file in place (it is not removed); the file
is removed entirely only on the all-success branch of a send cycle; an
empty set is thus never written as an empty-but-present file. -/
theorem empty_save_behavior (c : Codec E) (cfg : AppConfig) :
    (∀ s : SenderState E, s.pendingCache = [] → flushPendingToDisk c s = s)
    ∧ (∀ (net : Nat → NetResult) (s : SenderState E),
        s.pendingCache ++ s.queue ≠ [] →
        (sendBatch cfg net (s.pendingCache ++ s.queue)).allSuccess = true →
        (runCycle c cfg net s).1.store = none) := by
  constructor
  · intro s h
    simp [flushPendingToDisk, h]
  · intro net s hne hok
    simp only [runCycle]
    rw [if_neg (by simpa using hne), if_pos hok]

/-- Witness for C8's amended theorem: an empty flush over a stale file,
and an all-success cycle removing the file. -/
theorem empty_save_behavior_witness :
    flushPendingToDisk natCodec (initSender natCodec (some ['z']))
        = initSender natCodec (some ['z'])
    ∧ (runCycle natCodec defaultConfig (fun _ => NetResult.ok 200) fiveQueued).1.store
        = none :=
  ⟨(empty_save_behavior natCodec defaultConfig).1 _ (by decide),
    (empty_save_behavior natCodec defaultConfig).2 (fun _ => NetResult.ok 200) fiveQueued
      (by decide) (by decide)⟩

end Tracker
